import Mathlib

/-!
Verification of the envchain namespaced-credential core: a shallow embedding
of the service-name codec, the keychain entry operations, the access-policy
engine, the namespace enumeration (sort + dedup), the namespace inference
used for keychain auto-mapping, the set-access argument handling and the
exec-mode environment population, together with theorems settling the
specified properties.
-/

/-- The fixed marker prepended to a namespace to form the backend service
identifier (`ENVCHAIN_SERVICE_PREFIX` in `envchain_osx.c`). -/
def envchainServiceMarker : String := "envchain-"

/-- The fixed human-readable description tag (`ENVCHAIN_ITEM_DESCRIPTION`). -/
def envchainItemDescription : String := "envchain"

/-- Byte-wise check that the first character list is an initial run of the
second, modelling `strncmp(key, P, strlen(P)) == 0` from
`envchain_search_values_applier`. -/
def strncmpEq : List Char → List Char → Bool
  | [], _ => true
  | _ :: _, [] => false
  | a :: as, b :: bs => a == b && strncmpEq as bs

/-- `envchain_generate_service_name`: concatenate the marker and the
namespace (the `asprintf("%s%s", ENVCHAIN_SERVICE_PREFIX, name)` call). -/
def envchain_generate_service_name (name : String) : String :=
  ⟨envchainServiceMarker.data ++ name.data⟩

/-- Decoding of a stored service identifier as performed by
`envchain_search_values_applier` (lines 214-224 of `envchain_osx.c`): when the
marker is an initial run of the identifier it is stripped, otherwise the
decode fails. -/
def envchain_decode_service_name (s : String) : Option String :=
  if strncmpEq envchainServiceMarker.data s.data then
    some ⟨s.data.drop envchainServiceMarker.data.length⟩
  else none

/-- The name the applier hands to the namespace callback for an entry whose
service attribute is `svc`: the stripped name when the marker is present,
the raw attribute otherwise (no entry is dropped). -/
def envchain_applier_namespace_name (svc : String) : String :=
  match envchain_decode_service_name svc with
  | some n => n
  | none => svc

/-- The decrypt ACL contents of a keychain item: the authorized-application
list, the prompt-selector flags and the ACL description string, as read and
written by `SecACLCopyContents` / `SecACLSetContents`. -/
structure KAcl where
  appList : List String
  prompt : Nat
  descr : String
deriving DecidableEq

/-- A generic-password keychain entry: service attribute, account (the key),
secret data, description attribute, and its decrypt ACL. -/
structure KEntry where
  service : String
  account : String
  value : String
  desc : String
  acl : KAcl
deriving DecidableEq

/-- Whether an entry matches a `SecKeychainFindGenericPassword` query for
the given service name and account. -/
def envMatches (sn key : String) (e : KEntry) : Bool :=
  e.service == sn && e.account == key

/-- Index of the first entry matching service `sn` and account `key`,
modelling `SecKeychainFindGenericPassword` returning the single match. -/
def kcFind (sn key : String) : List KEntry → Option Nat
  | [] => none
  | e :: es =>
    if envMatches sn key e then some 0 else (kcFind sn key es).map (· + 1)

/-- `envchain_find_value`: locate the entry for `(name, key)` under the
encoded service identifier; `none` is the not-found outcome. -/
def envchain_find_value (st : List KEntry) (name key : String) : Option Nat :=
  kcFind (envchain_generate_service_name name) key st

/-- Apply a function to the element at an index of a list, leaving the rest
unchanged (used to model in-place modification of one keychain item). -/
def listModify (f : α → α) : Nat → List α → List α
  | _, [] => []
  | 0, x :: xs => f x :: xs
  | n + 1, x :: xs => x :: listModify f n xs

/-- Number of entries matching `(name, key)` in a store. -/
def matchCount (st : List KEntry) (name key : String) : Nat :=
  st.countP (envMatches (envchain_generate_service_name name) key)

/-- The flag `kSecKeychainPromptRequirePassphase` from the Security
framework, OR-ed into the prompt selector for the passphrase policy. -/
def kSecKeychainPromptRequirePassphase : Nat := 1

/-- `envchain_self_trusted_app_list`: the running program's own executable
identity, namely the invocation path followed by the resolved real path
when the two differ. -/
def envchain_self_trusted_app_list (selfExec selfReal : String) : List String :=
  selfExec :: (if selfExec ≠ selfReal then [selfReal] else [])

/-- `envchain_apply_item_access` acting on the decrypt ACL contents: for
`require_passphrase` the list becomes empty, the prompt selector is set to
`0x100` when it was zero and the passphrase flag is OR-ed in; otherwise the
prompt selector is cleared and the list becomes the program's own trusted
application list.  The ACL description is written back unchanged. -/
def envchain_apply_item_access (selfExec selfReal : String) (a : KAcl)
    (requirePassphrase : Bool) : KAcl :=
  if requirePassphrase then
    { appList := [],
      prompt :=
        (if a.prompt = 0 then 0x100 else a.prompt) |||
          kSecKeychainPromptRequirePassphase,
      descr := a.descr }
  else
    { appList := envchain_self_trusted_app_list selfExec selfReal,
      prompt := 0,
      descr := a.descr }

/-- `envchain_save_value`: find the entry for `(name, key)`; create it with
the encoded service identifier when absent (`SecKeychainAddGenericPassword`,
which leaves the description empty and gives the backend default ACL
`dAcl`), otherwise modify its data in place; then rewrite the description
tag together with the data; finally, when a policy was requested
(`require_passphrase >= 0`), apply the access policy to the entry. -/
def envchain_save_value (selfExec selfReal : String) (dAcl : KAcl)
    (st : List KEntry) (name key value : String)
    (requirePassphrase : Option Bool) : List KEntry :=
  let sn := envchain_generate_service_name name
  let found := envchain_find_value st name key
  let st1 :=
    match found with
    | none => st ++ [⟨sn, key, value, "", dAcl⟩]
    | some i => listModify (fun e => { e with value := value }) i st
  let i := match found with | none => st.length | some i => i
  let st2 := listModify
    (fun e => { e with desc := envchainItemDescription, value := value }) i st1
  match requirePassphrase with
  | none => st2
  | some b => listModify
      (fun e =>
        { e with acl := envchain_apply_item_access selfExec selfReal e.acl b })
      i st2

/-- `envchain_update_value_access`: reject a negative policy, warn and
return 1 without touching the store when the entry is absent, otherwise
apply the access policy to the found entry and return 0. -/
def envchain_update_value_access (selfExec selfReal : String)
    (st : List KEntry) (name key : String) (requirePassphrase : Option Bool) :
    Nat × List KEntry :=
  match requirePassphrase with
  | none => (1, st)
  | some b =>
    match envchain_find_value st name key with
    | none => (1, st)
    | some i =>
      (0, listModify
        (fun e =>
          { e with acl := envchain_apply_item_access selfExec selfReal e.acl b })
        i st)

/-- The per-key loop of `envchain_set_access`: every key is processed in
order; the overall result is 1 as soon as any per-key update failed and 0
when all succeeded. -/
def envchain_set_access_keys (selfExec selfReal : String) (st : List KEntry)
    (name : String) (keys : List String) (requirePassphrase : Bool) :
    Nat × List KEntry :=
  match keys with
  | [] => (0, st)
  | k :: ks =>
    let r := envchain_update_value_access selfExec selfReal st name k
      (some requirePassphrase)
    let rest := envchain_set_access_keys selfExec selfReal r.2 name ks
      requirePassphrase
    (if r.1 ≠ 0 then 1 else rest.1, rest.2)

/-- The emission loop of `envchain_search_namespaces`: walk the collected
names keeping the previously seen one (`prev_name`, initially null), and
invoke the callback only when the current name differs from it. -/
def emitLoop : Option String → List String → List String
  | _, [] => []
  | none, x :: xs => x :: emitLoop (some x) xs
  | some p, x :: xs =>
    if p ≠ x then x :: emitLoop (some x) xs else emitLoop (some x) xs

/-- The names emitted by `envchain_search_namespaces` for a collected
multiset of namespace names: `qsort` with `envchain_sortcmp_str` (string
comparison) followed by the skip-if-equal-to-previous loop. -/
def envchain_search_namespaces_emit (names : List String) : List String :=
  emitLoop none (List.insertionSort (· ≤ ·) names)

/-- The full namespace-enumeration pipeline on the service attributes of the
entries returned by the description-tag query: each service identifier is
turned into a name by the applier, then sorted and deduplicated. -/
def envchain_search_namespaces_names (services : List String) : List String :=
  envchain_search_namespaces_emit (services.map envchain_applier_namespace_name)

/-- Whether `argv[i][0] == '-'` holds for a C string. -/
def strIsFlag (s : String) : Bool := s.data.head? == some '-'

/-- Whether `strchr(s, ',') != NULL` holds for a C string. -/
def strHasComma (s : String) : Bool := s.data.contains ','

/-- The final guard of `envchain_namespace_from_argv`: a null or empty
inferred token yields no namespace. -/
def nsFinalize : Option String → Option String
  | some s => if s = "" then none else some s
  | none => none

/-- `envchain_namespace_from_argv`: infer the namespace a command implicitly
targets, following the per-command rules of the source. -/
def envchain_namespace_from_argv (argv : List String) : Option String :=
  match argv with
  | [] => none
  | cmd :: rest =>
    nsFinalize
      (if cmd = "--set" ∨ cmd = "-s" ∨ cmd = "--set-access" then
        (rest.dropWhile strIsFlag).head?
      else if cmd = "--unset" then rest.head?
      else if cmd = "--list" ∨ cmd = "-l" then
        (rest.dropWhile (fun a => a = "--show-value" ∨ a = "-v")).head?
      else if strIsFlag cmd = false then
        if strHasComma cmd then none else some cmd
      else none)

/-- Outcome of the argument-validation stage of a command: `helpAbort`
models `envchain_abort_with_help` (print the full help text, exit 2),
`errReturn c` models printing a specific diagnostic and returning `c`
without the help text, `ok` carries the accepted arguments. -/
inductive CliParse (α : Type) where
  | helpAbort : CliParse α
  | errReturn (code : Nat) : CliParse α
  | ok (a : α) : CliParse α
deriving DecidableEq

/-- Exit status attached to a validation outcome (`ok` proceeds, so 0). -/
def cliExitCode : CliParse α → Nat
  | .helpAbort => 2
  | .errReturn c => c
  | .ok _ => 0

/-- Whether the validation outcome printed the full help text. -/
def cliShowsHelp : CliParse α → Bool
  | .helpAbort => true
  | _ => false

/-- The checks following the option loop of `envchain_set_access`: fewer
than two remaining arguments abort with help; a policy never set by `-p` or
`-P` yields the specific diagnostic and status 2; otherwise the namespace
and keys are accepted. -/
def envchain_set_access_finalize (rp : Option Bool) (argv : List String) :
    CliParse (Bool × List String) :=
  if argv.length < 2 then .helpAbort
  else
    match rp with
    | none => .errReturn 2
    | some b => .ok (b, argv)

/-- The option loop of `envchain_set_access`: while more than two arguments
remain and the first starts with a dash, consume `-p`/`-P` (and their long
forms) updating the policy, and fail with status 1 on any other option. -/
def envchain_set_access_parse :
    Option Bool → List String → CliParse (Bool × List String)
  | rp, a :: rest =>
    if 2 < (a :: rest).length ∧ strIsFlag a = true then
      if a = "-p" ∨ a = "--require-passphrase" then
        envchain_set_access_parse (some true) rest
      else if a = "-P" ∨ a = "--no-require-passphrase" then
        envchain_set_access_parse (some false) rest
      else .errReturn 1
    else envchain_set_access_finalize rp (a :: rest)
  | rp, [] => envchain_set_access_finalize rp []

/-- `setenv(key, value, 1)`: replace the binding of `key` when present,
append it otherwise. -/
def envSet : List (String × String) → String → String → List (String × String)
  | [], k, v => [(k, v)]
  | p :: ps, k, v => if p.1 = k then (k, v) :: ps else p :: envSet ps k v

/-- `getenv`: the first binding of the key. -/
def envGet : List (String × String) → String → Option String
  | [], _ => none
  | p :: ps, k => if p.1 = k then some p.2 else envGet ps k

/-- The `(key, value)` pairs `envchain_search_values` yields for a
namespace, in backend order: the entries whose service attribute equals the
encoded service identifier. -/
def envchain_search_pairs (st : List KEntry) (name : String) :
    List (String × String) :=
  (st.filter (fun e => e.service == envchain_generate_service_name name)).map
    (fun e => (e.account, e.value))

/-- Install a list of pairs into an environment via `setenv` with overwrite,
left to right. -/
def applyPairs (env : List (String × String)) (ps : List (String × String)) :
    List (String × String) :=
  ps.foldl (fun e p => envSet e p.1 p.2) env

/-- `strsep(&names, ",")`: split a character list on every comma, keeping
empty tokens. -/
def splitCommaChars : List Char → List (List Char)
  | [] => [[]]
  | c :: cs =>
    if c = ',' then [] :: splitCommaChars cs
    else
      match splitCommaChars cs with
      | t :: ts => (c :: t) :: ts
      | [] => [[c]]

/-- The namespaces of an exec invocation: the first argument split on
commas. -/
def envchain_split_names (s : String) : List String :=
  (splitCommaChars s.data).map (fun l => ⟨l⟩)

/-- The environment after the exec-mode loop of `envchain_exec`: for each
comma-separated namespace in order, every retrieved pair is installed with
overwrite enabled. -/
def envchain_exec_env (st : List KEntry) (env : List (String × String))
    (names : String) : List (String × String) :=
  (envchain_split_names names).foldl
    (fun e n => applyPairs e (envchain_search_pairs st n)) env

/-- A two-namespace demonstration store in which both namespaces define the
key `K`. -/
def execDemoStore : List KEntry :=
  [⟨"envchain-a", "K", "1", "envchain", ⟨[], 0, ""⟩⟩,
   ⟨"envchain-b", "K", "2", "envchain", ⟨[], 0, ""⟩⟩]

/-! ## Helper lemmas: codec -/

theorem strncmpEq_append (p r : List Char) : strncmpEq p (p ++ r) = true := by
  induction p with
  | nil => rfl
  | cons a as ih => simp [strncmpEq, ih]

theorem drop_length_append (p r : List Char) : (p ++ r).drop p.length = r := by
  induction p with
  | nil => rfl
  | cons a as ih => simp [ih]


/-! ## Helper lemmas: listModify -/

theorem listModify_nil (f : α → α) (i : Nat) : listModify f i [] = [] := by
  cases i <;> rfl

theorem listModify_length (f : α → α) (i : Nat) (l : List α) :
    (listModify f i l).length = l.length := by
  induction l generalizing i with
  | nil => rw [listModify_nil]
  | cons x xs ih =>
    cases i with
    | zero => rfl
    | succ n => simpa [listModify] using ih n

theorem get_listModify_self (f : α → α) (i : Nat) (l : List α)
    (h : i < l.length) (h' : i < (listModify f i l).length) :
    (listModify f i l).get ⟨i, h'⟩ = f (l.get ⟨i, h⟩) := by
  induction l generalizing i with
  | nil => simp at h
  | cons x xs ih =>
    cases i with
    | zero => rfl
    | succ n =>
      simp only [listModify, List.get]
      exact ih n (by simpa using h) (by simpa [listModify_length] using h')

theorem listModify_listModify (f g : α → α) (i : Nat) (l : List α) :
    listModify g i (listModify f i l) = listModify (fun x => g (f x)) i l := by
  induction l generalizing i with
  | nil => rw [listModify_nil, listModify_nil, listModify_nil]
  | cons x xs ih =>
    cases i with
    | zero => rfl
    | succ n => simpa [listModify] using ih n

theorem listModify_eq_self (f : α → α) (i : Nat) (l : List α)
    (h : ∀ hi : i < l.length, f (l.get ⟨i, hi⟩) = l.get ⟨i, hi⟩) :
    listModify f i l = l := by
  induction l generalizing i with
  | nil => rw [listModify_nil]
  | cons x xs ih =>
    cases i with
    | zero =>
      have := h (by simp)
      simpa [listModify] using this
    | succ n =>
      simp only [listModify, List.cons.injEq, true_and]
      exact ih n (fun hi => h (by simpa using Nat.succ_lt_succ hi))

theorem listModify_append_length (f : α → α) (l : List α) (e : α) :
    listModify f l.length (l ++ [e]) = l ++ [f e] := by
  induction l with
  | nil => rfl
  | cons x xs ih => simpa [listModify] using ih

theorem map_listModify (f : α → α) (g : α → β) (i : Nat) (l : List α)
    (h : ∀ x, g (f x) = g x) :
    (listModify f i l).map g = l.map g := by
  induction l generalizing i with
  | nil => rw [listModify_nil]
  | cons x xs ih =>
    cases i with
    | zero => simp [listModify, h]
    | succ n => simpa [listModify] using ih n

/-! ## Helper lemmas: kcFind and matchCount -/

theorem kcFind_eq_none_iff (sn key : String) (l : List KEntry) :
    kcFind sn key l = none ↔ ∀ e ∈ l, envMatches sn key e = false := by
  induction l with
  | nil => simp [kcFind]
  | cons e es ih =>
    by_cases he : envMatches sn key e = true
    · simp [kcFind, he]
    · rw [Bool.not_eq_true] at he
      simp [kcFind, he, Option.map_eq_none', ih]

theorem kcFind_some_spec (sn key : String) (l : List KEntry) (i : Nat)
    (h : kcFind sn key l = some i) :
    ∃ hi : i < l.length, envMatches sn key (l.get ⟨i, hi⟩) = true := by
  induction l generalizing i with
  | nil => simp [kcFind] at h
  | cons e es ih =>
    by_cases he : envMatches sn key e = true
    · rw [kcFind, if_pos he, Option.some.injEq] at h
      subst h
      exact ⟨by simp, by simpa using he⟩
    · rw [kcFind, if_neg he, Option.map_eq_some'] at h
      obtain ⟨j, hj, rfl⟩ := h
      obtain ⟨hjl, hmatch⟩ := ih j hj
      exact ⟨by simpa using Nat.succ_lt_succ hjl, by simpa using hmatch⟩

theorem kcFind_append_some (sn key : String) (l1 l2 : List KEntry) (j : Nat)
    (h1 : kcFind sn key l1 = none) (h2 : kcFind sn key l2 = some j) :
    kcFind sn key (l1 ++ l2) = some (l1.length + j) := by
  induction l1 with
  | nil => simpa using h2
  | cons e es ih =>
    by_cases he : envMatches sn key e = true
    · rw [kcFind, if_pos he] at h1
      exact absurd h1 (by simp)
    · rw [kcFind, if_neg he, Option.map_eq_none'] at h1
      rw [List.cons_append, kcFind, if_neg he, ih h1]
      simp only [Option.map_some', List.length_cons]
      congr 1
      omega

theorem kcFind_listModify (sn key : String) (f : KEntry → KEntry)
    (hf : ∀ e, envMatches sn key (f e) = envMatches sn key e)
    (i : Nat) (l : List KEntry) :
    kcFind sn key (listModify f i l) = kcFind sn key l := by
  induction l generalizing i with
  | nil => rw [listModify_nil]
  | cons x xs ih =>
    cases i with
    | zero => simp [listModify, kcFind, hf]
    | succ n => simp [listModify, kcFind, ih n]

theorem countP_listModify (p : KEntry → Bool) (f : KEntry → KEntry)
    (hf : ∀ e, p (f e) = p e) (i : Nat) (l : List KEntry) :
    (listModify f i l).countP p = l.countP p := by
  induction l generalizing i with
  | nil => rw [listModify_nil]
  | cons x xs ih =>
    cases i with
    | zero => simp [listModify, List.countP_cons, hf]
    | succ n => simp [listModify, List.countP_cons, ih n]

theorem countP_pos_of_kcFind_some (sn key : String) (l : List KEntry) (i : Nat)
    (h : kcFind sn key l = some i) :
    1 ≤ l.countP (envMatches sn key) := by
  obtain ⟨hi, hm⟩ := kcFind_some_spec sn key l i h
  have hmem : l.get ⟨i, hi⟩ ∈ l := l.get_mem i hi
  exact (List.countP_pos_iff).mpr ⟨_, hmem, hm⟩

theorem countP_eq_zero_of_kcFind_none (sn key : String) (l : List KEntry)
    (h : kcFind sn key l = none) :
    l.countP (envMatches sn key) = 0 := by
  rw [List.countP_eq_zero]
  intro e he
  rw [(kcFind_eq_none_iff sn key l).mp h e he]
  exact Bool.false_ne_true

/-! ## Helper lemmas: emission loop of the namespace enumeration -/

theorem mem_emitLoop_some (l : List String) (p a : String) (h : a ∈ l) :
    a ∈ emitLoop (some p) l ∨ a = p := by
  induction l generalizing p with
  | nil => simp at h
  | cons x xs ih =>
    rcases List.mem_cons.mp h with rfl | hxs
    · by_cases hpx : p ≠ a
      · left
        simp [emitLoop, hpx]
      · right
        rw [not_not] at hpx
        exact hpx.symm
    · rcases ih x hxs with hmem | rfl
      · left
        by_cases hpx : p ≠ x <;> simp [emitLoop, hpx, hmem]
      · by_cases hpx : p ≠ a
        · left
          simp [emitLoop, hpx]
        · right
          rw [not_not] at hpx
          exact hpx.symm

theorem mem_emitLoop_none (l : List String) (a : String) (h : a ∈ l) :
    a ∈ emitLoop none l := by
  cases l with
  | nil => simp at h
  | cons x xs =>
    rw [emitLoop]
    rcases List.mem_cons.mp h with rfl | hxs
    · exact List.mem_cons_self _ _
    · rcases mem_emitLoop_some xs x a hxs with hmem | rfl
      · exact List.mem_cons_of_mem _ hmem
      · exact List.mem_cons_self _ _

theorem mem_of_mem_emitLoop (l : List String) (op : Option String) (a : String)
    (h : a ∈ emitLoop op l) : a ∈ l := by
  induction l generalizing op with
  | nil => cases op <;> simp [emitLoop] at h
  | cons x xs ih =>
    cases op with
    | none =>
      rw [emitLoop] at h
      rcases List.mem_cons.mp h with rfl | hmem
      · exact List.mem_cons_self _ _
      · exact List.mem_cons_of_mem _ (ih _ hmem)
    | some p =>
      rw [emitLoop] at h
      by_cases hpx : p ≠ x
      · rw [if_pos hpx] at h
        rcases List.mem_cons.mp h with rfl | hmem
        · exact List.mem_cons_self _ _
        · exact List.mem_cons_of_mem _ (ih _ hmem)
      · rw [if_neg hpx] at h
        exact List.mem_cons_of_mem _ (ih _ h)

theorem pairwise_emitLoop_some (l : List String) (p : String)
    (h : (p :: l).Pairwise (· ≤ ·)) :
    (emitLoop (some p) l).Pairwise (· < ·) ∧
      ∀ b ∈ emitLoop (some p) l, p < b := by
  induction l generalizing p with
  | nil => exact ⟨List.Pairwise.nil, by simp [emitLoop]⟩
  | cons x xs ih =>
    have hpx : p ≤ x := (List.pairwise_cons.mp h).1 x (List.mem_cons_self _ _)
    have hxxs : (x :: xs).Pairwise (· ≤ ·) := (List.pairwise_cons.mp h).2
    obtain ⟨hE, hgt⟩ := ih x hxxs
    by_cases hne : p ≠ x
    · have hplt : p < x := lt_of_le_of_ne hpx hne
      rw [emitLoop, if_pos hne]
      constructor
      · exact List.pairwise_cons.mpr ⟨hgt, hE⟩
      · intro b hb
        rcases List.mem_cons.mp hb with rfl | hmem
        · exact hplt
        · exact lt_trans hplt (hgt b hmem)
    · rw [not_not] at hne
      subst hne
      rw [emitLoop, if_neg (by simp)]
      exact ⟨hE, hgt⟩

theorem pairwise_emitLoop_none (l : List String)
    (h : l.Pairwise (· ≤ ·)) :
    (emitLoop none l).Pairwise (· < ·) := by
  cases l with
  | nil => exact List.Pairwise.nil
  | cons x xs =>
    rw [emitLoop]
    obtain ⟨hE, hgt⟩ := pairwise_emitLoop_some xs x h
    exact List.pairwise_cons.mpr ⟨hgt, hE⟩

theorem mem_search_namespaces_emit_iff (names : List String) (s : String) :
    s ∈ envchain_search_namespaces_emit names ↔ s ∈ names := by
  rw [envchain_search_namespaces_emit]
  constructor
  · intro h
    have := mem_of_mem_emitLoop _ _ _ h
    exact (List.mem_insertionSort (· ≤ ·)).mp this
  · intro h
    exact mem_emitLoop_none _ _ ((List.mem_insertionSort (· ≤ ·)).mpr h)

theorem pairwise_search_namespaces_emit (names : List String) :
    (envchain_search_namespaces_emit names).Pairwise (· < ·) := by
  rw [envchain_search_namespaces_emit]
  exact pairwise_emitLoop_none _ (List.sorted_insertionSort (· ≤ ·) names)

/-! ## Helper lemmas: set-access batch processing -/

theorem update_value_access_find (selfExec selfReal : String) (st : List KEntry)
    (name key : String) (b : Bool) (name' key' : String) :
    envchain_find_value
      (envchain_update_value_access selfExec selfReal st name key (some b)).2
      name' key' = envchain_find_value st name' key' := by
  rw [envchain_update_value_access]
  cases hf : envchain_find_value st name key with
  | none => rfl
  | some i =>
    simp only [envchain_find_value]
    exact kcFind_listModify _ _
      (fun e =>
        { e with acl := envchain_apply_item_access selfExec selfReal e.acl b })
      (fun e => rfl) i st

theorem set_access_keys_fst (selfExec selfReal : String) (st : List KEntry)
    (name : String) (keys : List String) (b : Bool) :
    (envchain_set_access_keys selfExec selfReal st name keys b).1 =
      if keys.all (fun k => (envchain_find_value st name k).isSome) then 0
      else 1 := by
  induction keys generalizing st with
  | nil => simp [envchain_set_access_keys]
  | cons k ks ih =>
    rw [envchain_set_access_keys]
    cases hf : envchain_find_value st name k with
    | none =>
      simp only [envchain_update_value_access, hf]
      simp [hf]
    | some i =>
      have hst2 :
          (envchain_update_value_access selfExec selfReal st name k (some b)).1
            = 0 := by
        simp [envchain_update_value_access, hf]
      have hfind :
          (fun k' => (envchain_find_value
              (envchain_update_value_access selfExec selfReal st name k
                (some b)).2 name k').isSome)
            = fun k' => (envchain_find_value st name k').isSome := by
        funext k'
        rw [update_value_access_find]
      rw [hst2, if_neg (by simp), ih, hfind]
      simp [hf]

/-! ## Helper lemmas: exec-mode environment population -/

theorem envGet_envSet (env : List (String × String)) (k v k' : String) :
    envGet (envSet env k v) k' = if k = k' then some v else envGet env k' := by
  induction env with
  | nil =>
    by_cases h : k = k' <;> simp [envSet, envGet, h]
  | cons p ps ih =>
    by_cases hp : p.1 = k
    · rw [envSet, if_pos hp]
      by_cases h : k = k'
      · simp [envGet, h]
      · have hp' : p.1 ≠ k' := by rw [hp]; exact h
        simp [envGet, h, hp']
    · rw [envSet, if_neg hp]
      by_cases hq : p.1 = k'
      · have h : k ≠ k' := by
          intro hkk
          exact hp (hq.trans hkk.symm)
        simp [envGet, hq, h]
      · simp [envGet, hq, ih]

theorem find?_append_cases (p : α → Bool) (l1 l2 : List α) :
    (l1 ++ l2).find? p =
      match l1.find? p with
      | some a => some a
      | none => l2.find? p := by
  induction l1 with
  | nil => simp
  | cons x xs ih =>
    by_cases hx : p x
    · simp [List.find?_cons, hx]
    · rw [Bool.not_eq_true] at hx
      simp [List.find?_cons, hx, ih]

theorem find?_eq_none_of_all_neg (p : α → Bool) (l : List α)
    (h : ∀ a ∈ l, p a = false) : l.find? p = none := by
  induction l with
  | nil => rfl
  | cons x xs ih =>
    have hx := h x (List.mem_cons_self _ _)
    rw [List.find?_cons, hx]
    exact ih (fun a ha => h a (List.mem_cons_of_mem _ ha))

theorem find?_isSome_of_any (p : α → Bool) (l : List α)
    (h : l.any p = true) : ∃ a, l.find? p = some a ∧ p a = true := by
  induction l with
  | nil => simp at h
  | cons x xs ih =>
    by_cases hx : p x = true
    · exact ⟨x, by simp [List.find?_cons, hx], hx⟩
    · rw [Bool.not_eq_true] at hx
      rw [List.any_cons, hx, Bool.false_or] at h
      obtain ⟨a, ha, hpa⟩ := ih h
      exact ⟨a, by simp [List.find?_cons, hx, ha], hpa⟩

theorem envGet_applyPairs (env : List (String × String))
    (ps : List (String × String)) (k : String) :
    envGet (applyPairs env ps) k =
      match ps.reverse.find? (fun q => q.1 == k) with
      | some q => some q.2
      | none => envGet env k := by
  induction ps generalizing env with
  | nil => rfl
  | cons p ps ih =>
    have step : applyPairs env (p :: ps) = applyPairs (envSet env p.1 p.2) ps := rfl
    rw [step, ih, List.reverse_cons, find?_append_cases]
    cases hr : ps.reverse.find? (fun q => q.1 == k) with
    | some q => rfl
    | none =>
      simp only [List.find?]
      by_cases hp : p.1 = k
      · have : (p.1 == k) = true := by simp [hp]
        rw [this]
        rw [envGet_envSet, if_pos hp]
      · have : (p.1 == k) = false := by simp [hp]
        rw [this]
        rw [envGet_envSet, if_neg hp]

theorem applyPairs_append (env : List (String × String))
    (ps qs : List (String × String)) :
    applyPairs env (ps ++ qs) = applyPairs (applyPairs env ps) qs := by
  rw [applyPairs, applyPairs, applyPairs, List.foldl_append]

theorem foldl_applyPairs (f : String → List (String × String))
    (ns : List String) (env : List (String × String)) :
    ns.foldl (fun e n => applyPairs e (f n)) env =
      applyPairs env ((ns.map f).flatten) := by
  induction ns generalizing env with
  | nil => rfl
  | cons n ns ih =>
    rw [List.foldl_cons, ih, List.map_cons, List.flatten_cons, applyPairs_append]

theorem envchain_exec_env_eq_applyPairs (st : List KEntry)
    (env : List (String × String)) (names : String) :
    envchain_exec_env st env names =
      applyPairs env
        (((envchain_split_names names).map (envchain_search_pairs st)).flatten) := by
  rw [envchain_exec_env, foldl_applyPairs]

/-! ## Claim theorems -/

/-- C5: for every non-empty namespace `N`, decoding the encoded service
identifier recovers `N` exactly (`decode (encode N) = some N`), and for
every string that does not begin with the marker the decode yields
`none`. -/
theorem envchain_service_name_roundtrip :
    (∀ name : String, name ≠ "" →
      envchain_decode_service_name (envchain_generate_service_name name)
        = some name)
    ∧ ∀ s : String, strncmpEq envchainServiceMarker.data s.data = false →
        envchain_decode_service_name s = none := by
  constructor
  · intro name _
    obtain ⟨d⟩ := name
    rw [envchain_generate_service_name, envchain_decode_service_name]
    rw [if_pos (strncmpEq_append _ _)]
    rw [Option.some.injEq]
    show (⟨(envchainServiceMarker.data ++ d).drop envchainServiceMarker.data.length⟩ : String) = ⟨d⟩
    rw [drop_length_append]
  · intro s h
    rw [envchain_decode_service_name, if_neg (by rw [h]; exact Bool.false_ne_true)]

/-- C5 witness: the round trip at the concrete namespace `db`, and the
decode failure at the markerless identifier `foo`. -/
theorem envchain_service_name_roundtrip_witness :
    envchain_decode_service_name (envchain_generate_service_name "db")
      = some "db"
    ∧ envchain_decode_service_name "foo" = none := by
  constructor
  · exact envchain_service_name_roundtrip.1 "db" (by decide)
  · exact envchain_service_name_roundtrip.2 "foo" (by decide)

/-- C3: for any multiset of collected namespace names, the emission stage of
`envchain_search_namespaces` produces a strictly increasing list (hence
ascending lexicographic order with no namespace emitted twice) whose
members are exactly the distinct collected names. -/
theorem envchain_search_namespaces_sorted_nodup (names : List String) :
    (envchain_search_namespaces_emit names).Pairwise (· < ·)
    ∧ ∀ s, s ∈ envchain_search_namespaces_emit names ↔ s ∈ names :=
  ⟨pairwise_search_namespaces_emit names,
   fun s => mem_search_namespaces_emit_iff names s⟩

/-- C4 counterexample: an entry whose service identifier `foo` lacks the
marker (the decode fails) is not skipped by namespace enumeration; it is
surfaced to the namespace callback under its raw identifier, refuting the
claim that such entries are never passed to the callback. -/
theorem envchain_search_namespaces_skip_counterexample :
    envchain_decode_service_name "foo" = none
    ∧ envchain_search_namespaces_names ["foo"] = ["foo"]
    ∧ "foo" ∈ envchain_search_namespaces_names ["foo"] := by
  refine ⟨by decide, by decide, by decide⟩

/-- C4 amended: entries reaching the applier during namespace enumeration
are pre-filtered only by the fixed description tag in the backend query; an
entry whose service identifier carries the marker is surfaced with the
marker stripped, while an entry whose identifier does not decode is still
surfaced, under its raw identifier. -/
theorem envchain_search_namespaces_surfaces_unmarked (services : List String)
    (svc : String) (h1 : svc ∈ services)
    (h2 : envchain_decode_service_name svc = none) :
    svc ∈ envchain_search_namespaces_names services := by
  rw [envchain_search_namespaces_names]
  rw [mem_search_namespaces_emit_iff]
  have : envchain_applier_namespace_name svc = svc := by
    rw [envchain_applier_namespace_name, h2]
  rw [← this]
  exact List.mem_map_of_mem envchain_applier_namespace_name h1

/-- C4 witness: the markerless service identifier `foo` is surfaced by the
enumeration of a store containing only that entry. -/
theorem envchain_search_namespaces_surfaces_unmarked_witness :
    "foo" ∈ envchain_search_namespaces_names ["foo"] :=
  envchain_search_namespaces_surfaces_unmarked ["foo"] "foo"
    (by decide) (by decide)

/-- C6: the namespace-inference examples of the specification hold, and the
inference never returns an empty namespace. -/
theorem envchain_namespace_from_argv_spec :
    envchain_namespace_from_argv ["--set", "-n", "db", "HOST"] = some "db"
    ∧ envchain_namespace_from_argv ["--unset", "db", "HOST"] = some "db"
    ∧ envchain_namespace_from_argv ["--list", "-v"] = none
    ∧ envchain_namespace_from_argv ["db,web", "bash"] = none
    ∧ envchain_namespace_from_argv ["db", "bash"] = some "db"
    ∧ ∀ argv, envchain_namespace_from_argv argv ≠ some "" := by
  refine ⟨by decide, by decide, by decide, by decide, by decide, ?_⟩
  intro argv
  cases argv with
  | nil => simp [envchain_namespace_from_argv]
  | cons cmd rest =>
    rw [envchain_namespace_from_argv]
    generalize (if cmd = "--set" ∨ cmd = "-s" ∨ cmd = "--set-access" then
        (rest.dropWhile strIsFlag).head?
      else if cmd = "--unset" then rest.head?
      else if cmd = "--list" ∨ cmd = "-l" then
        (rest.dropWhile (fun a => a = "--show-value" ∨ a = "-v")).head?
      else if strIsFlag cmd = false then
        if strHasComma cmd then none else some cmd
      else none) = o
    cases o with
    | none => simp [nsFinalize]
    | some s =>
      rw [nsFinalize]
      by_cases hs : s = ""
      · simp [hs]
      · simp [hs]

/-- C1 counterexample: applying the RequirePassphrase policy to an ACL whose
pre-existing prompt selector is the non-zero value 0x40 yields selector
0x41; the explicit always-prompt flag 0x100 (bit 8) is not set, refuting
the claim that this flag is set in every case. -/
theorem envchain_apply_item_access_counterexample :
    (envchain_apply_item_access "e" "e" ⟨[], 64, "d"⟩ true).prompt = 65
    ∧ Nat.testBit
        (envchain_apply_item_access "e" "e" ⟨[], 64, "d"⟩ true).prompt 8
        = false := by
  refine ⟨by decide, by decide⟩

/-- C1 amended: applying TrustedCallers rewrites the decrypt ACL so that the
authorized-application list is exactly the invocation path followed by the
resolved real path when distinct (never empty, never containing other
paths) and the prompt-selector flags are cleared to zero; applying
RequirePassphrase empties the list and adds the require-passphrase flag to
the prompt selector, setting the explicit always-prompt flag 0x100 only
when the pre-existing selector was zero (a non-zero selector is kept and
only the passphrase bit is added); in both cases the pre-existing
authorized-application list is discarded unconditionally, never merged. -/
theorem envchain_apply_item_access_spec (se sr : String) (a : KAcl) :
    ((envchain_apply_item_access se sr a false).appList
        = se :: (if se ≠ sr then [sr] else [])
      ∧ (envchain_apply_item_access se sr a false).appList ≠ []
      ∧ (envchain_apply_item_access se sr a false).prompt = 0
      ∧ ∀ p ∈ (envchain_apply_item_access se sr a false).appList,
          p = se ∨ p = sr)
    ∧ ((envchain_apply_item_access se sr a true).appList = []
      ∧ Nat.testBit (envchain_apply_item_access se sr a true).prompt 0 = true
      ∧ (a.prompt = 0 →
          (envchain_apply_item_access se sr a true).prompt = 257)
      ∧ (a.prompt ≠ 0 →
          (envchain_apply_item_access se sr a true).prompt = a.prompt ||| 1))
    ∧ ∀ (l : List String) (rp : Bool),
        envchain_apply_item_access se sr { a with appList := l } rp
          = envchain_apply_item_access se sr a rp := by
  refine ⟨⟨rfl, by simp [envchain_apply_item_access, envchain_self_trusted_app_list], rfl, ?_⟩, ⟨rfl, ?_, ?_, ?_⟩, ?_⟩
  · intro p hp
    rw [envchain_apply_item_access] at hp
    simp only [if_neg (Bool.false_ne_true), envchain_self_trusted_app_list] at hp
    rcases List.mem_cons.mp hp with rfl | hp'
    · exact Or.inl rfl
    · by_cases hne : se ≠ sr
      · rw [if_pos hne] at hp'
        rcases List.mem_singleton.mp hp' with rfl
        exact Or.inr rfl
      · rw [if_neg hne] at hp'
        simp at hp'
  · rw [envchain_apply_item_access]
    simp only [if_pos]
    rw [Nat.testBit_or]
    simp [kSecKeychainPromptRequirePassphase]
  · intro h0
    rw [envchain_apply_item_access]
    simp [h0, kSecKeychainPromptRequirePassphase]
  · intro h0
    rw [envchain_apply_item_access]
    simp [h0, kSecKeychainPromptRequirePassphase]
  · intro l rp
    cases rp <;> rfl

/-- C1 witness: the amended statement applied at concrete ACLs, discharging
the zero and non-zero prompt-selector hypotheses. -/
theorem envchain_apply_item_access_spec_witness :
    (envchain_apply_item_access "a" "b" ⟨["x"], 0, "d"⟩ true).prompt = 257
    ∧ (envchain_apply_item_access "a" "b" ⟨["x"], 2, "d"⟩ true).prompt = 3 := by
  constructor
  · exact (envchain_apply_item_access_spec "a" "b" ⟨["x"], 0, "d"⟩).2.1.2.2.1 rfl
  · have h :=
      (envchain_apply_item_access_spec "a" "b" ⟨["x"], 2, "d"⟩).2.1.2.2.2
        (by decide)
    rw [h]
    decide

/-- C9 counterexample: a set-access invocation lacking both `-p` and `-P`
(namespace `db`, key `KEY`) yields the specific diagnostic with status 2
and does not print the full help text, refuting the claim that every usage
error prints the help text. -/
theorem envchain_set_access_usage_counterexample :
    envchain_set_access_parse none ["db", "KEY"] = .errReturn 2
    ∧ cliShowsHelp (envchain_set_access_parse none ["db", "KEY"]) = false := by
  refine ⟨by decide, by decide⟩

/-- C9 amended: a set-access invocation with fewer than two remaining
arguments prints the full help text and exits with status 2; an invocation
with a namespace and at least one key but lacking both `-p` and `-P`
terminates with status 2 printing a specific diagnostic instead of the help
text; an unrecognized option encountered while more than two arguments
remain yields status 1 without the help text. -/
theorem envchain_set_access_usage_spec :
    (∀ (rp : Option Bool) (argv : List String), argv.length < 2 →
        envchain_set_access_parse rp argv = .helpAbort)
    ∧ (∀ (n : String) (rest : List String),
        strIsFlag n = false → rest ≠ [] →
        envchain_set_access_parse none (n :: rest) = .errReturn 2)
    ∧ (∀ (rp : Option Bool) (a : String) (rest : List String),
        strIsFlag a = true →
        a ≠ "-p" → a ≠ "--require-passphrase" →
        a ≠ "-P" → a ≠ "--no-require-passphrase" →
        2 < (a :: rest).length →
        envchain_set_access_parse rp (a :: rest) = .errReturn 1)
    ∧ cliShowsHelp (CliParse.helpAbort : CliParse (Bool × List String)) = true
    ∧ cliExitCode (CliParse.helpAbort : CliParse (Bool × List String)) = 2
    ∧ ∀ c, cliShowsHelp (CliParse.errReturn c : CliParse (Bool × List String))
        = false := by
  refine ⟨?_, ?_, ?_, rfl, rfl, fun c => rfl⟩
  · intro rp argv hlen
    cases argv with
    | nil => simp [envchain_set_access_parse, envchain_set_access_finalize]
    | cons a rest =>
      rw [envchain_set_access_parse,
        if_neg (by simp at hlen ⊢; omega)]
      unfold envchain_set_access_finalize
      rw [if_pos hlen]
  · intro n rest hflag hne
    rw [envchain_set_access_parse, if_neg (by simp [hflag])]
    have hlen : ¬ (n :: rest).length < 2 := by
      simp only [List.length_cons]
      have := List.length_pos.mpr hne
      omega
    unfold envchain_set_access_finalize
    rw [if_neg hlen]
  · intro rp a rest hflag h1 h2 h3 h4 hlen
    rw [envchain_set_access_parse, if_pos ⟨hlen, hflag⟩,
      if_neg (by simp [h1, h2]), if_neg (by simp [h3, h4])]

/-- C9 witness: the amended statement at concrete invocations of all three
shapes. -/
theorem envchain_set_access_usage_spec_witness :
    envchain_set_access_parse none ["db"] = .helpAbort
    ∧ envchain_set_access_parse none ["ns", "KEY"] = .errReturn 2
    ∧ envchain_set_access_parse none ["-x", "db", "KEY"] = .errReturn 1 :=
  ⟨envchain_set_access_usage_spec.1 none ["db"] (by decide),
   envchain_set_access_usage_spec.2.1 "ns" ["KEY"] (by decide) (by decide),
   envchain_set_access_usage_spec.2.2.1 none "-x" ["db", "KEY"] (by decide)
     (by decide) (by decide) (by decide) (by decide) (by decide)⟩

theorem get_append_length (l : List α) (e : α)
    (h : l.length < (l ++ [e]).length) :
    (l ++ [e]).get ⟨l.length, h⟩ = e := by
  induction l with
  | nil => rfl
  | cons x xs ih =>
    simp only [List.cons_append, List.length_cons, List.get]
    exact ih _

/-- C8: saving with the policy left unspecified never touches any access
control list: the ACLs of the pre-existing entries are unchanged, and the
single appended entry, present exactly when the lookup failed, carries the
backend default ACL. -/
theorem envchain_save_unspecified_acl_frame (se sr : String) (dAcl : KAcl)
    (st : List KEntry) (name key v : String) :
    ((envchain_save_value se sr dAcl st name key v none).take
        st.length).map KEntry.acl = st.map KEntry.acl
    ∧ ((envchain_save_value se sr dAcl st name key v none).drop
        st.length).map KEntry.acl =
      (if (envchain_find_value st name key).isSome then [] else [dAcl]) := by
  cases hf : envchain_find_value st name key with
  | none =>
    have hshape1 : envchain_save_value se sr dAcl st name key v none =
        listModify
          (fun e =>
            { e with desc := envchainItemDescription, value := v })
          st.length
          (st ++ [⟨envchain_generate_service_name name, key, v, "", dAcl⟩]) := by
      unfold envchain_save_value
      rw [hf]
    have hshape : envchain_save_value se sr dAcl st name key v none =
        st ++ [⟨envchain_generate_service_name name, key, v,
          envchainItemDescription, dAcl⟩] := by
      rw [hshape1, listModify_append_length]
    rw [hshape]
    constructor
    · rw [List.take_left]
    · rw [List.drop_left]
      rfl
  | some i =>
    have hshape1 : envchain_save_value se sr dAcl st name key v none =
        listModify
          (fun e =>
            { e with desc := envchainItemDescription, value := v })
          i
          (listModify (fun e => { e with value := v }) i st) := by
      unfold envchain_save_value
      rw [hf]
    have hshape : envchain_save_value se sr dAcl st name key v none =
        listModify
          (fun e => { e with desc := envchainItemDescription, value := v })
          i st := by
      rw [hshape1, listModify_listModify]
    rw [hshape]
    have hlen := listModify_length
      (fun e : KEntry => { e with desc := envchainItemDescription, value := v })
      i st
    constructor
    · rw [← hlen, List.take_length]
      exact map_listModify _ KEntry.acl i st (fun x => rfl)
    · rw [← hlen, List.drop_length]
      rfl

/-- C7: updating access for a key that was never created returns the
non-zero per-key result 1 and leaves the store untouched; the multi-key
set-access loop keeps processing the remaining keys after such a failure,
and its overall result is 0 exactly when every key is found and 1 when at
least one key failed. -/
theorem envchain_update_access_missing (se sr : String) (st : List KEntry)
    (name key : String) (b : Bool)
    (h : envchain_find_value st name key = none) :
    envchain_update_value_access se sr st name key (some b) = (1, st)
    ∧ (∀ ks, envchain_set_access_keys se sr st name (key :: ks) b
        = (1, (envchain_set_access_keys se sr st name ks b).2))
    ∧ ∀ keys, (envchain_set_access_keys se sr st name keys b).1
        = if keys.all (fun k => (envchain_find_value st name k).isSome) then 0
          else 1 := by
  have h1 : envchain_update_value_access se sr st name key (some b) = (1, st) := by
    rw [envchain_update_value_access, h]
  refine ⟨h1, ?_, fun keys => set_access_keys_fst se sr st name keys b⟩
  intro ks
  rw [envchain_set_access_keys, h1]
  simp

/-- C7 witness: the missing-key behaviour at the empty store, including the
batch results for a one-key batch. -/
theorem envchain_update_access_missing_witness :
    envchain_update_value_access "e" "r" [] "n" "k" (some true) = (1, [])
    ∧ envchain_set_access_keys "e" "r" [] "n" ["k"] true
        = (1, (envchain_set_access_keys "e" "r" [] "n" [] true).2)
    ∧ (envchain_set_access_keys "e" "r" [] "n" ["k"] true).1 = 1 := by
  obtain ⟨h1, h2, h3⟩ :=
    envchain_update_access_missing "e" "r" [] "n" "k" true rfl
  exact ⟨h1, h2 [], (h3 ["k"]).trans (by decide)⟩

theorem envchain_save_shape_none (se sr : String) (dAcl : KAcl)
    (st : List KEntry) (name key v : String)
    (hf : envchain_find_value st name key = none) :
    envchain_save_value se sr dAcl st name key v none =
      st ++ [⟨envchain_generate_service_name name, key, v,
        envchainItemDescription, dAcl⟩] := by
  have hshape1 : envchain_save_value se sr dAcl st name key v none =
      listModify
        (fun e => { e with desc := envchainItemDescription, value := v })
        st.length
        (st ++ [⟨envchain_generate_service_name name, key, v, "", dAcl⟩]) := by
    unfold envchain_save_value
    rw [hf]
  rw [hshape1, listModify_append_length]

theorem envchain_save_shape_some (se sr : String) (dAcl : KAcl)
    (st : List KEntry) (name key v : String) (i : Nat)
    (hf : envchain_find_value st name key = some i) :
    envchain_save_value se sr dAcl st name key v none =
      listModify
        (fun e => { e with desc := envchainItemDescription, value := v })
        i st := by
  have hshape1 : envchain_save_value se sr dAcl st name key v none =
      listModify
        (fun e => { e with desc := envchainItemDescription, value := v })
        i
        (listModify (fun e => { e with value := v }) i st) := by
    unfold envchain_save_value
    rw [hf]
  rw [hshape1, listModify_listModify]

/-- C2: saving a value with the policy unspecified and then finding the
entry locates exactly one entry for the pair, whose stored value is exactly
the saved value and whose description is the fixed tag, whether or not an
entry existed before; saving the same value again leaves the store
unchanged. -/
theorem envchain_save_then_find (se sr : String) (dAcl : KAcl)
    (st : List KEntry) (name key v : String)
    (h : matchCount st name key ≤ 1) :
    matchCount (envchain_save_value se sr dAcl st name key v none) name key = 1
    ∧ (∃ i, envchain_find_value
          (envchain_save_value se sr dAcl st name key v none) name key = some i
        ∧ ∃ hi : i < (envchain_save_value se sr dAcl st name key v none).length,
            ((envchain_save_value se sr dAcl st name key v none).get
                ⟨i, hi⟩).value = v
          ∧ ((envchain_save_value se sr dAcl st name key v none).get
                ⟨i, hi⟩).desc = envchainItemDescription)
    ∧ envchain_save_value se sr dAcl
        (envchain_save_value se sr dAcl st name key v none) name key v none
      = envchain_save_value se sr dAcl st name key v none := by
  cases hf : envchain_find_value st name key with
  | none =>
    have hkc : kcFind (envchain_generate_service_name name) key st = none := hf
    have hshape := envchain_save_shape_none se sr dAcl st name key v hf
    have hE : envMatches (envchain_generate_service_name name) key
        ⟨envchain_generate_service_name name, key, v,
          envchainItemDescription, dAcl⟩ = true := by
      simp [envMatches]
    have hfind2 : envchain_find_value
        (st ++ [⟨envchain_generate_service_name name, key, v,
          envchainItemDescription, dAcl⟩]) name key = some st.length := by
      have hone : kcFind (envchain_generate_service_name name) key
          [⟨envchain_generate_service_name name, key, v,
            envchainItemDescription, dAcl⟩] = some 0 := by
        rw [kcFind, if_pos hE]
      have := kcFind_append_some (envchain_generate_service_name name) key st
        _ 0 hkc hone
      simpa using this
    rw [hshape]
    refine ⟨?_, ?_, ?_⟩
    · rw [matchCount, List.countP_append]
      rw [countP_eq_zero_of_kcFind_none _ _ _ hkc]
      simp [List.countP_cons, hE]
    · refine ⟨st.length, hfind2, ⟨by simp, ?_, ?_⟩⟩
      · rw [get_append_length st _ (by simp)]
      · rw [get_append_length st _ (by simp)]
    · have hsecond := envchain_save_shape_some se sr dAcl
        (st ++ [⟨envchain_generate_service_name name, key, v,
          envchainItemDescription, dAcl⟩]) name key v st.length hfind2
      rw [hsecond]
      apply listModify_eq_self
      intro hi
      rw [get_append_length st _ hi]
  | some i =>
    have hkc : kcFind (envchain_generate_service_name name) key st = some i := hf
    obtain ⟨hi, hm⟩ := kcFind_some_spec _ _ st i hkc
    have hshape := envchain_save_shape_some se sr dAcl st name key v i hf
    have hfind2 : envchain_find_value
        (listModify
          (fun e => { e with desc := envchainItemDescription, value := v })
          i st) name key = some i := by
      rw [envchain_find_value,
        kcFind_listModify (envchain_generate_service_name name) key
          (fun e => { e with desc := envchainItemDescription, value := v })
          (fun e => rfl) i st]
      exact hkc
    have hcount : matchCount st name key = 1 := by
      have hle : 1 ≤ matchCount st name key :=
        countP_pos_of_kcFind_some _ _ st i hkc
      omega
    have hilen : i < (listModify
        (fun e : KEntry =>
          { e with desc := envchainItemDescription, value := v })
        i st).length := by
      rw [listModify_length]
      exact hi
    rw [hshape]
    refine ⟨?_, ?_, ?_⟩
    · rw [matchCount,
        countP_listModify (envMatches (envchain_generate_service_name name) key)
          (fun e => { e with desc := envchainItemDescription, value := v })
          (fun e => rfl) i st]
      exact hcount
    · refine ⟨i, hfind2, ⟨hilen, ?_, ?_⟩⟩
      · rw [get_listModify_self _ i st hi hilen]
      · rw [get_listModify_self _ i st hi hilen]
    · have hsecond := envchain_save_shape_some se sr dAcl
        (listModify
          (fun e => { e with desc := envchainItemDescription, value := v })
          i st) name key v i hfind2
      rw [hsecond]
      apply listModify_eq_self
      intro hi2
      rw [get_listModify_self _ i st hi hi2]

/-- C2 witness: saving into the empty store and finding again, at concrete
strings. -/
theorem envchain_save_then_find_witness :
    matchCount (envchain_save_value "e" "r" ⟨[], 0, "d"⟩ [] "n" "k" "v" none)
        "n" "k" = 1
    ∧ (∃ i, envchain_find_value
          (envchain_save_value "e" "r" ⟨[], 0, "d"⟩ [] "n" "k" "v" none)
          "n" "k" = some i
        ∧ ∃ hi : i < (envchain_save_value "e" "r" ⟨[], 0, "d"⟩ [] "n" "k" "v"
              none).length,
            ((envchain_save_value "e" "r" ⟨[], 0, "d"⟩ [] "n" "k" "v"
                none).get ⟨i, hi⟩).value = "v"
          ∧ ((envchain_save_value "e" "r" ⟨[], 0, "d"⟩ [] "n" "k" "v"
                none).get ⟨i, hi⟩).desc = envchainItemDescription)
    ∧ envchain_save_value "e" "r" ⟨[], 0, "d"⟩
        (envchain_save_value "e" "r" ⟨[], 0, "d"⟩ [] "n" "k" "v" none)
        "n" "k" "v" none
      = envchain_save_value "e" "r" ⟨[], 0, "d"⟩ [] "n" "k" "v" none :=
  envchain_save_then_find "e" "r" ⟨[], 0, "d"⟩ [] "n" "k" "v" (by decide)

/-- C10: in exec mode the first argument is split on commas and the
namespaces are processed left to right with overwriting `setenv`, so the
resulting environment is characterized by the last written pair, and for a
key defined by several listed namespaces the value observed is the one from
the last-listed namespace containing that key. -/
theorem envchain_exec_last_namespace_wins :
    (∀ (st : List KEntry) (env : List (String × String)) (names k : String),
      envGet (envchain_exec_env st env names) k =
        match ((envchain_split_names names).map
            (envchain_search_pairs st)).flatten.reverse.find?
              (fun q => q.1 == k) with
        | some q => some q.2
        | none => envGet env k)
    ∧ ∀ (st : List KEntry) (env : List (String × String)) (names k : String)
        (pre post : List String) (n : String),
        envchain_split_names names = pre ++ n :: post →
        ((envchain_search_pairs st n).any (fun q => q.1 == k)) = true →
        (∀ m ∈ post,
          ((envchain_search_pairs st m).any (fun q => q.1 == k)) = false) →
        envGet (envchain_exec_env st env names) k =
          ((envchain_search_pairs st n).reverse.find?
            (fun q => q.1 == k)).map Prod.snd := by
  have hchar : ∀ (st : List KEntry) (env : List (String × String))
      (names k : String),
      envGet (envchain_exec_env st env names) k =
        match ((envchain_split_names names).map
            (envchain_search_pairs st)).flatten.reverse.find?
              (fun q => q.1 == k) with
        | some q => some q.2
        | none => envGet env k := by
    intro st env names k
    rw [envchain_exec_env_eq_applyPairs, envGet_applyPairs]
  refine ⟨hchar, ?_⟩
  intro st env names k pre post n hsplit hany hpost
  rw [hchar, hsplit]
  have hflat : ((pre ++ n :: post).map (envchain_search_pairs st)).flatten =
      (pre.map (envchain_search_pairs st)).flatten ++
        (envchain_search_pairs st n ++
          (post.map (envchain_search_pairs st)).flatten) := by
    rw [List.map_append, List.map_cons, List.flatten_append, List.flatten_cons]
  rw [hflat, List.reverse_append, List.reverse_append]
  have hnone : ((post.map (envchain_search_pairs st)).flatten.reverse.find?
      (fun q => q.1 == k)) = none := by
    apply find?_eq_none_of_all_neg
    intro q hq
    rw [List.mem_reverse, List.mem_flatten] at hq
    obtain ⟨l, hl, hql⟩ := hq
    rw [List.mem_map] at hl
    obtain ⟨m, hm, rfl⟩ := hl
    have := hpost m hm
    rw [List.any_eq_false] at this
    have hq2 := this q hql
    rw [Bool.not_eq_true] at hq2
    exact hq2
  obtain ⟨a, ha, hpa⟩ := List.any_eq_true.mp hany
  have hrev_any : (envchain_search_pairs st n).reverse.any
      (fun q => q.1 == k) = true :=
    List.any_eq_true.mpr ⟨a, List.mem_reverse.mpr ha, hpa⟩
  obtain ⟨q, hq, hpq⟩ := find?_isSome_of_any _ _ hrev_any
  rw [find?_append_cases, find?_append_cases, hnone, hq]
  rfl

/-- C10 witness: with both namespaces `a` and `b` defining the key `K`, an
exec over `a,b` observes the value stored under `b`. -/
theorem envchain_exec_last_namespace_wins_witness :
    envGet (envchain_exec_env execDemoStore [] "a,b") "K" = some "2" := by
  have h := envchain_exec_last_namespace_wins.2 execDemoStore [] "a,b" "K"
    ["a"] [] "b" (by decide) (by decide) (by simp)
  rw [h]
  decide
